import Mathlib

/-!
Shallow embedding of the todo-list state model of `src/app.rs`.

The Rust component owns a `State` (a vector of entries, an active filter and
two text buffers) and mutates it through `App::update` dispatching on `Msg`.
Index-taking messages receive a position into the currently filtered visible
subsequence; the state methods re-derive the filtered view and mutate through
it.  A Rust `unwrap`/index panic is modelled by `Option`: `none` is a panic.
-/

namespace Todo

/-- One task item: `struct Entry` of `app.rs`. -/
structure Entry where
  description : String
  completed : Bool
  editing : Bool
  deriving Repr, DecidableEq

/-- The display filter: `enum Filter` of `app.rs`. -/
inductive Filter where
  | All
  | Active
  | Completed
  deriving Repr, DecidableEq

/-- Predicate dispatch `Filter::fit`. -/
def Filter.fit : Filter → Entry → Bool
  | .All, _ => true
  | .Active, e => !e.completed
  | .Completed, e => e.completed

/-- Route string of a filter: `impl Into<Href> for &Filter`. -/
def Filter.to_href : Filter → String
  | .All => "#/"
  | .Active => "#/active"
  | .Completed => "#/completed"

/-- The model state: `struct State` of `app.rs`. -/
structure State where
  entries : List Entry
  filter : Filter
  value : String
  edit_value : String
  deriving Repr, DecidableEq

/-- The messages of `App::update` (`enum Msg`). -/
inductive Msg where
  | Add
  | Edit (idx : Nat)
  | Update (val : String)
  | UpdateEdit (val : String)
  | Remove (idx : Nat)
  | SetFilter (f : Filter)
  | ToggleAll
  | ToggleEdit (idx : Nat)
  | Toggle (idx : Nat)
  | ClearCompleted
  | Nope

/-- `State::total`. -/
def State.total (s : State) : Nat := s.entries.length

/-- `State::total_completed`. -/
def State.total_completed (s : State) : Nat :=
  (s.entries.filter (fun e => Filter.Completed.fit e)).length

/-- The currently visible subsequence, as the view renders it
(`entries.iter().filter(|e| self.state.filter.fit(e))` in `view`). -/
def State.visible (s : State) : List Entry :=
  s.entries.filter (fun e => s.filter.fit e)

/-- `State::is_all_completed`: peeks the filtered iterator; empty gives
`false`, otherwise all visible entries must be completed. -/
def State.is_all_completed (s : State) : Bool :=
  let filtered := s.entries.filter (fun e => s.filter.fit e)
  if filtered.isEmpty then false else filtered.all (fun e => e.completed)

/-- `State::toggle_all`: sets `completed := value` on every entry passing
the current filter, in place. -/
def State.toggle_all (s : State) (value : Bool) : State :=
  { s with entries := s.entries.map (fun e => if s.filter.fit e then { e with completed := value } else e) }

/-- `State::clear_completed`: keeps exactly the entries passing the
`Active` predicate. -/
def State.clear_completed (s : State) : State :=
  { s with entries := s.entries.filter (fun e => Filter.Active.fit e) }

/-- Backing index of the `idx`-th entry passing the current filter:
`entries.iter().enumerate().filter(|(_, e)| filter.fit(e)).get(idx)`
(the shared resolution step of all index-taking methods; `none` when the
`get`/`unwrap` would panic). -/
def State.resolve (s : State) (idx : Nat) : Option Nat :=
  ((s.entries.enum.filter (fun q => s.filter.fit q.2))[idx]?).map Prod.fst

/-- Replace the entry at backing position `j` by `f` of it (the effect of
mutating through the `j`-th `&mut` reference of the backing vector). -/
def updateEntryAt : List Entry → Nat → (Entry → Entry) → List Entry
  | [], _, _ => []
  | e :: es, 0, f => f e :: es
  | e :: es, Nat.succ n, f => e :: updateEntryAt es n f

/-- `State::toggle`: flips `completed` of the `idx`-th visible entry. -/
def State.toggle (s : State) (idx : Nat) : Option State :=
  match s.resolve idx with
  | none => none
  | some j =>
      some { s with entries := updateEntryAt s.entries j (fun e => { e with completed := !e.completed }) }

/-- `State::toggle_edit`: flips `editing` of the `idx`-th visible entry. -/
def State.toggle_edit (s : State) (idx : Nat) : Option State :=
  match s.resolve idx with
  | none => none
  | some j =>
      some { s with entries := updateEntryAt s.entries j (fun e => { e with editing := !e.editing }) }

/-- `State::complete_edit`: sets `description := val` and flips `editing`
of the `idx`-th visible entry. -/
def State.complete_edit (s : State) (idx : Nat) (val : String) : Option State :=
  match s.resolve idx with
  | none => none
  | some j =>
      some { s with entries := updateEntryAt s.entries j (fun e => { e with description := val, editing := !e.editing }) }

/-- `State::remove`: resolves `idx` through the filtered enumeration and
removes the entry at the resolved backing position. -/
def State.remove (s : State) (idx : Nat) : Option State :=
  match s.resolve idx with
  | none => none
  | some j => some { s with entries := s.entries.eraseIdx j }

/-- The dispatch `App::update` of `app.rs`, without the storage write and
the render flag (the write receives the post-state entries, the flag is
constantly `true`); `none` models a panic. -/
def App.update (s : State) : Msg → Option State
  | .Add =>
      some { s with entries := s.entries ++ [{ description := s.value, completed := false, editing := false }], value := "" }
  | .Edit idx =>
      match s.complete_edit idx s.edit_value with
      | none => none
      | some t => some { t with edit_value := "" }
  | .Update val => some { s with value := val }
  | .UpdateEdit val => some { s with edit_value := val }
  | .Remove idx => s.remove idx
  | .SetFilter f => some { s with filter := f }
  | .ToggleEdit idx =>
      match s.entries[idx]? with
      | none => none
      | some e => State.toggle_edit { s with edit_value := e.description } idx
  | .ToggleAll => some (s.toggle_all (!s.is_all_completed))
  | .Toggle idx => s.toggle idx
  | .ClearCompleted => some s.clear_completed
  | .Nope => some s

/-- The bulk-toggle target as the spec words it: the negation of "every
currently visible entry is completed", an empty visible subsequence counting
as "not all completed" so that the target is true. -/
def specToggleAllTarget (s : State) : Bool :=
  if s.visible.isEmpty then true else !(s.visible.all (fun x => x.completed))

/-- The state the spec prescribes for `toggleAll`: `completed := target` on
exactly the entries passing the active filter, the rest untouched. -/
def specToggleAllResult (s : State) : State :=
  { s with entries := s.entries.map (fun e => if s.filter.fit e then { e with completed := specToggleAllTarget s } else e) }

/-! Helper lemmas on the filtered enumeration and on point updates. -/

theorem enumFrom_filter_map_snd {α : Type} (p : α → Bool) (es : List α) :
    ∀ n : Nat, ((List.enumFrom n es).filter (fun q => p q.2)).map Prod.snd = es.filter p := by
  induction es with
  | nil => intro n; rfl
  | cons a as ih =>
      intro n
      simp only [List.enumFrom, List.filter_cons]
      cases hp : p a with
      | true => simp [hp, ih (n + 1)]
      | false => simp [hp, ih (n + 1)]

theorem enumFrom_filter_getElem {α : Type} (p : α → Bool) (es : List α) :
    ∀ (n idx j : Nat) (a : α),
      ((List.enumFrom n es).filter (fun q => p q.2))[idx]? = some (j, a) →
      n ≤ j ∧ es[j - n]? = some a ∧ p a = true ∧
        ((es.take (j - n)).filter p).length = idx := by
  induction es with
  | nil =>
      intro n idx j a h
      simp [List.enumFrom] at h
  | cons b bs ih =>
      intro n idx j a h
      simp only [List.enumFrom, List.filter_cons] at h
      cases hb : p b with
      | true =>
          rw [hb, if_pos rfl] at h
          cases idx with
          | zero =>
              rw [List.getElem?_cons_zero] at h
              have hja := Option.some.inj h
              have hj1 : n = j := congrArg Prod.fst hja
              have hj2 : b = a := congrArg Prod.snd hja
              subst hj1; subst hj2
              refine ⟨Nat.le_refl n, ?_, hb, ?_⟩
              · simp
              · simp
          | succ k =>
              rw [List.getElem?_cons_succ] at h
              obtain ⟨h1, h2, h3, h4⟩ := ih (n + 1) k j a h
              have hd : j - n = (j - (n + 1)) + 1 := by omega
              refine ⟨by omega, ?_, h3, ?_⟩
              · rw [hd, List.getElem?_cons_succ]; exact h2
              · rw [hd, List.take_succ_cons, List.filter_cons, hb, if_pos rfl]
                simp only [List.length_cons]
                omega
      | false =>
          rw [hb, if_neg (fun hc => Bool.noConfusion hc)] at h
          obtain ⟨h1, h2, h3, h4⟩ := ih (n + 1) idx j a h
          have hd : j - n = (j - (n + 1)) + 1 := by omega
          refine ⟨by omega, ?_, h3, ?_⟩
          · rw [hd, List.getElem?_cons_succ]; exact h2
          · rw [hd, List.take_succ_cons, List.filter_cons, hb,
              if_neg (fun hc => Bool.noConfusion hc)]
            exact h4

theorem length_enumFrom_filter {α : Type} (p : α → Bool) (es : List α) (n : Nat) :
    ((List.enumFrom n es).filter (fun q => p q.2)).length = (es.filter p).length := by
  have h := congrArg List.length (enumFrom_filter_map_snd p es n)
  simpa using h

theorem getElem?_isSome_iff {α : Type} (l : List α) (i : Nat) :
    l[i]?.isSome = true ↔ i < l.length := by
  constructor
  · intro h
    by_contra hlt
    rw [List.getElem?_eq_none (Nat.le_of_not_lt hlt)] at h
    simp at h
  · intro h
    rw [List.getElem?_eq_getElem h]
    rfl

/-- Resolution succeeds exactly on indices within the visible subsequence. -/
theorem resolve_isSome_iff (s : State) (idx : Nat) :
    (s.resolve idx).isSome = true ↔ idx < s.visible.length := by
  unfold State.resolve State.visible
  have h1 : (Option.map Prod.fst ((s.entries.enum.filter (fun q => s.filter.fit q.2))[idx]?)).isSome
      = ((s.entries.enum.filter (fun q => s.filter.fit q.2))[idx]?).isSome := by
    cases (s.entries.enum.filter (fun q => s.filter.fit q.2))[idx]? <;> rfl
  rw [h1, getElem?_isSome_iff]
  rw [show (s.entries.enum.filter (fun q => s.filter.fit q.2)).length
      = (s.entries.filter (fun e => s.filter.fit e)).length
    from length_enumFrom_filter (fun e => s.filter.fit e) s.entries 0]

/-- What a successful resolution gives: the backing entry at the resolved
index passes the filter, is the `idx`-th visible entry, and is preceded by
exactly `idx` filter-passing entries. -/
theorem resolve_spec (s : State) (idx j : Nat) (h : s.resolve idx = some j) :
    ∃ e, s.entries[j]? = some e ∧ s.filter.fit e = true ∧
      ((s.entries.take j).filter (fun x => s.filter.fit x)).length = idx ∧
      s.visible[idx]? = some e := by
  unfold State.resolve at h
  obtain ⟨q, hq, hq1⟩ := Option.map_eq_some'.mp h
  obtain ⟨j', e⟩ := q
  have hj : j' = j := hq1
  subst hj
  have hmain := enumFrom_filter_getElem (fun x => s.filter.fit x) s.entries 0 idx j' e hq
  obtain ⟨-, h2, h3, h4⟩ := hmain
  simp only [Nat.sub_zero] at h2 h4
  refine ⟨e, h2, h3, h4, ?_⟩
  have hmap := enumFrom_filter_map_snd (fun x => s.filter.fit x) s.entries 0
  unfold State.visible
  rw [show (s.entries.filter (fun x => s.filter.fit x))
      = (s.entries.enum.filter (fun q => s.filter.fit q.2)).map Prod.snd from hmap.symm]
  rw [List.getElem?_map, hq]
  rfl

theorem updateEntryAt_length :
    ∀ (es : List Entry) (j : Nat) (f : Entry → Entry),
      (updateEntryAt es j f).length = es.length
  | [], _, _ => rfl
  | _ :: _, 0, _ => rfl
  | e :: es, Nat.succ n, f => by
      simp only [updateEntryAt, List.length_cons, updateEntryAt_length es n f]

theorem updateEntryAt_getElem_self :
    ∀ (es : List Entry) (j : Nat) (f : Entry → Entry) (e : Entry),
      es[j]? = some e → (updateEntryAt es j f)[j]? = some (f e)
  | [], j, f, e => by intro h; simp at h
  | a :: as, 0, f, e => by
      intro h
      rw [List.getElem?_cons_zero] at h
      rw [Option.some.injEq] at h
      subst h
      simp only [updateEntryAt, List.getElem?_cons_zero]
  | a :: as, Nat.succ n, f, e => by
      intro h
      rw [List.getElem?_cons_succ] at h
      simp only [updateEntryAt, List.getElem?_cons_succ]
      exact updateEntryAt_getElem_self as n f e h

theorem updateEntryAt_getElem_ne :
    ∀ (es : List Entry) (j : Nat) (f : Entry → Entry) (k : Nat),
      k ≠ j → (updateEntryAt es j f)[k]? = es[k]?
  | [], _, _, _ => by intro h; rfl
  | a :: as, 0, f, 0 => by intro h; exact absurd rfl h
  | a :: as, 0, f, Nat.succ m => by
      intro h
      simp only [updateEntryAt, List.getElem?_cons_succ]
  | a :: as, Nat.succ n, f, 0 => by
      intro h
      simp only [updateEntryAt, List.getElem?_cons_zero]
  | a :: as, Nat.succ n, f, Nat.succ m => by
      intro h
      have hm : m ≠ n := fun hc => h (congrArg Nat.succ hc)
      simp only [updateEntryAt, List.getElem?_cons_succ]
      exact updateEntryAt_getElem_ne as n f m hm

theorem updateEntryAt_updateEntryAt :
    ∀ (es : List Entry) (j : Nat) (f g : Entry → Entry),
      updateEntryAt (updateEntryAt es j f) j g = updateEntryAt es j (fun e => g (f e))
  | [], _, _, _ => rfl
  | a :: as, 0, f, g => rfl
  | a :: as, Nat.succ n, f, g => by
      simp only [updateEntryAt]
      rw [updateEntryAt_updateEntryAt as n f g]

theorem updateEntryAt_congr :
    ∀ (es : List Entry) (j : Nat) (f g : Entry → Entry) (e : Entry),
      es[j]? = some e → f e = g e → updateEntryAt es j f = updateEntryAt es j g
  | [], _, _, _, _ => by intro h _; simp at h
  | a :: as, 0, f, g, e => by
      intro h hfg
      rw [List.getElem?_cons_zero, Option.some.injEq] at h
      subst h
      simp only [updateEntryAt, hfg]
  | a :: as, Nat.succ n, f, g, e => by
      intro h hfg
      rw [List.getElem?_cons_succ] at h
      simp only [updateEntryAt]
      rw [updateEntryAt_congr as n f g e h hfg]

theorem updateEntryAt_id :
    ∀ (es : List Entry) (j : Nat), updateEntryAt es j (fun e => e) = es
  | [], _ => rfl
  | a :: as, 0 => rfl
  | a :: as, Nat.succ n => by
      simp only [updateEntryAt]
      rw [updateEntryAt_id as n]

theorem resolve_eq_none_iff (s : State) (idx : Nat) :
    s.resolve idx = none ↔ s.visible.length ≤ idx := by
  have h := resolve_isSome_iff s idx
  constructor
  · intro hn
    rw [hn] at h
    simp at h
    omega
  · intro hle
    cases hres : s.resolve idx with
    | none => rfl
    | some j =>
        rw [hres] at h
        simp at h
        omega

theorem toggle_none_iff (s : State) (idx : Nat) :
    s.toggle idx = none ↔ s.resolve idx = none := by
  unfold State.toggle
  cases s.resolve idx with
  | none => simp
  | some j => simp

theorem toggle_edit_none_iff (s : State) (idx : Nat) :
    s.toggle_edit idx = none ↔ s.resolve idx = none := by
  unfold State.toggle_edit
  cases s.resolve idx with
  | none => simp
  | some j => simp

theorem complete_edit_none_iff (s : State) (idx : Nat) (val : String) :
    s.complete_edit idx val = none ↔ s.resolve idx = none := by
  unfold State.complete_edit
  cases s.resolve idx with
  | none => simp
  | some j => simp

theorem remove_none_iff (s : State) (idx : Nat) :
    s.remove idx = none ↔ s.resolve idx = none := by
  unfold State.remove
  cases s.resolve idx with
  | none => simp
  | some j => simp

theorem update_toggle_edit_none_iff (s : State) (idx : Nat) :
    App.update s (.ToggleEdit idx) = none ↔ s.visible.length ≤ idx := by
  rw [show App.update s (.ToggleEdit idx) = (match s.entries[idx]? with
      | none => none
      | some e => State.toggle_edit { s with edit_value := e.description } idx) from rfl]
  cases hent : s.entries[idx]? with
  | none =>
      have hlen : s.entries.length ≤ idx := by
        by_contra hlt
        rw [List.getElem?_eq_getElem (Nat.lt_of_not_le hlt)] at hent
        exact Option.noConfusion hent
      have hvis : s.visible.length ≤ s.entries.length := List.length_filter_le _ _
      simp only
      constructor
      · intro _; omega
      · intro _; trivial
  | some e =>
      simp only
      rw [toggle_edit_none_iff]
      rw [show State.resolve { s with edit_value := e.description } idx = s.resolve idx from rfl]
      rw [resolve_eq_none_iff]

theorem update_edit_none_iff (s : State) (idx : Nat) :
    App.update s (.Edit idx) = none ↔ s.visible.length ≤ idx := by
  rw [show App.update s (.Edit idx) = (match s.complete_edit idx s.edit_value with
      | none => none
      | some t => some { t with edit_value := "" }) from rfl]
  cases hc : s.complete_edit idx s.edit_value with
  | none =>
      have hres := (complete_edit_none_iff s idx s.edit_value).mp hc
      have hlen := (resolve_eq_none_iff s idx).mp hres
      simp [hlen]
  | some t =>
      have hres : ¬ s.resolve idx = none := by
        intro hn
        have hcontra : s.complete_edit idx s.edit_value = none :=
          (complete_edit_none_iff s idx s.edit_value).mpr hn
        rw [hc] at hcontra
        exact Option.noConfusion hcontra
      have hlt : ¬ s.visible.length ≤ idx := fun hle =>
        hres ((resolve_eq_none_iff s idx).mpr hle)
      simp only
      constructor
      · intro hcontra; exact Option.noConfusion hcontra
      · intro hle; exact absurd hle hlt

theorem enumFrom_getElem {α : Type} (es : List α) :
    ∀ (n i : Nat), (List.enumFrom n es)[i]? = es[i]?.map (fun a => (n + i, a)) := by
  induction es with
  | nil => intro n i; simp [List.enumFrom]
  | cons a as ih =>
      intro n i
      cases i with
      | zero => simp [List.enumFrom]
      | succ m =>
          simp only [List.enumFrom, List.getElem?_cons_succ, ih (n + 1) m]
          cases as[m]? with
          | none => rfl
          | some b => simp [Nat.add_assoc, Nat.add_comm 1 m]

/-- Under filter `All` the visible index is the backing index. -/
theorem resolve_filter_all (s : State) (hall : s.filter = Filter.All) (idx : Nat)
    (hidx : idx < s.entries.length) : s.resolve idx = some idx := by
  unfold State.resolve
  have hfit : (fun q : Nat × Entry => s.filter.fit q.2) = fun _ => true := by
    funext q; rw [hall]; rfl
  rw [hfit, List.filter_true]
  rw [show s.entries.enum = List.enumFrom 0 s.entries from rfl]
  rw [enumFrom_getElem s.entries 0 idx]
  rw [List.getElem?_eq_getElem hidx]
  simp

/-! The claims. -/

/-- Claim C1 (code bug evidence): under filter `Completed` with entries
`[A(completed = false), B(completed = true)]`, the visible subsequence is
`[B]` and `ToggleEdit 0` (the spec's `beginEdit 0`) flips `B`'s editing
flag, but copies into `edit_value` the description `"A"` of the unresolved
backing entry `entries[0]`, not the description `"B"` of the resolved
entry: the description copied is not that of the entry whose editing flag
is flipped. -/
theorem toggleEdit_copies_unresolved_description :
    App.update ⟨[⟨"A", false, false⟩, ⟨"B", true, false⟩], .Completed, "", ""⟩ (.ToggleEdit 0)
      = some ⟨[⟨"A", false, false⟩, ⟨"B", true, true⟩], .Completed, "", "A"⟩ := rfl

/-- Claim C2: for every state and visible index within bounds of the
filtered visible subsequence, `remove` resolves the index to the backing
position of the `idx`-th filter-passing entry (that entry is the `idx`-th
visible one and is preceded by exactly `idx` filter-passing entries) and
deletes exactly that backing position, keeping every other entry in order;
in particular with filter `Active` and entries
`[A(false), B(true), C(false)]`, removing visible index `1` removes `C`
and leaves `[A, B]`. -/
theorem remove_deletes_resolved_visible_entry :
    (∀ (s : State) (idx : Nat), idx < s.visible.length →
      ∃ j e, s.resolve idx = some j ∧ s.entries[j]? = some e ∧
        s.visible[idx]? = some e ∧
        ((s.entries.take j).filter (fun x => s.filter.fit x)).length = idx ∧
        s.remove idx = some { s with entries := s.entries.take j ++ s.entries.drop (j + 1) }) ∧
    App.update ⟨[⟨"A", false, false⟩, ⟨"B", true, false⟩, ⟨"C", false, false⟩], .Active, "", ""⟩
        (.Remove 1)
      = some ⟨[⟨"A", false, false⟩, ⟨"B", true, false⟩], .Active, "", ""⟩ := by
  constructor
  · intro s idx hidx
    have hsome : (s.resolve idx).isSome = true := (resolve_isSome_iff s idx).mpr hidx
    rcases hres : s.resolve idx with _ | j
    · rw [hres] at hsome; exact Bool.noConfusion hsome
    obtain ⟨e, h1, h2, h3, h4⟩ := resolve_spec s idx j hres
    refine ⟨j, e, rfl, h1, h4, h3, ?_⟩
    unfold State.remove
    rw [hres]
    simp only [List.eraseIdx_eq_take_drop_succ]
  · rfl

/-- Witness for claim C2: the general statement applied to the concrete
state of the claim, visible index `1` under filter `Active`. -/
theorem remove_deletes_resolved_visible_entry_witness :
    ∃ j e,
      State.resolve ⟨[⟨"A", false, false⟩, ⟨"B", true, false⟩, ⟨"C", false, false⟩],
          .Active, "", ""⟩ 1 = some j ∧
      ([⟨"A", false, false⟩, ⟨"B", true, false⟩, ⟨"C", false, false⟩] : List Entry)[j]? = some e ∧
      (State.visible ⟨[⟨"A", false, false⟩, ⟨"B", true, false⟩, ⟨"C", false, false⟩],
          .Active, "", ""⟩)[1]? = some e ∧
      ((([⟨"A", false, false⟩, ⟨"B", true, false⟩, ⟨"C", false, false⟩] : List Entry).take
          j).filter (fun x => Filter.Active.fit x)).length = 1 ∧
      State.remove ⟨[⟨"A", false, false⟩, ⟨"B", true, false⟩, ⟨"C", false, false⟩],
          .Active, "", ""⟩ 1
        = some ⟨([⟨"A", false, false⟩, ⟨"B", true, false⟩, ⟨"C", false, false⟩] : List Entry).take j
            ++ ([⟨"A", false, false⟩, ⟨"B", true, false⟩,
              ⟨"C", false, false⟩] : List Entry).drop (j + 1), .Active, "", ""⟩ :=
  remove_deletes_resolved_visible_entry.1
    ⟨[⟨"A", false, false⟩, ⟨"B", true, false⟩, ⟨"C", false, false⟩], .Active, "", ""⟩ 1
    (by decide)

/-- Claim C3: every index-taking operation (`Toggle`, `ToggleEdit`, `Edit`,
`Remove`) panics — modelled as `none` — exactly when the received index is
outside the bounds of the currently filtered visible subsequence; within
bounds the error branch is unreachable and the index is never clamped or
ignored. -/
theorem index_ops_fail_iff_out_of_bounds (s : State) (idx : Nat) :
    (App.update s (.Toggle idx) = none ↔ s.visible.length ≤ idx) ∧
    (App.update s (.ToggleEdit idx) = none ↔ s.visible.length ≤ idx) ∧
    (App.update s (.Edit idx) = none ↔ s.visible.length ≤ idx) ∧
    (App.update s (.Remove idx) = none ↔ s.visible.length ≤ idx) := by
  refine ⟨?_, update_toggle_edit_none_iff s idx, update_edit_none_iff s idx, ?_⟩
  · rw [show App.update s (.Toggle idx) = s.toggle idx from rfl, toggle_none_iff,
      resolve_eq_none_iff]
  · rw [show App.update s (.Remove idx) = s.remove idx from rfl, remove_none_iff,
      resolve_eq_none_iff]

/-- Witness for claim C3 at a concrete state and an out-of-bounds index:
filter `Active` hides the only completed entry, so visible index `1` is out
of bounds and all four operations fail. -/
theorem index_ops_fail_iff_out_of_bounds_witness :
    (App.update ⟨[⟨"A", false, false⟩, ⟨"B", true, false⟩], .Active, "", ""⟩ (.Toggle 1) = none ↔
      (State.visible ⟨[⟨"A", false, false⟩, ⟨"B", true, false⟩], .Active, "", ""⟩).length ≤ 1) ∧
    (App.update ⟨[⟨"A", false, false⟩, ⟨"B", true, false⟩], .Active, "", ""⟩ (.ToggleEdit 1) = none ↔
      (State.visible ⟨[⟨"A", false, false⟩, ⟨"B", true, false⟩], .Active, "", ""⟩).length ≤ 1) ∧
    (App.update ⟨[⟨"A", false, false⟩, ⟨"B", true, false⟩], .Active, "", ""⟩ (.Edit 1) = none ↔
      (State.visible ⟨[⟨"A", false, false⟩, ⟨"B", true, false⟩], .Active, "", ""⟩).length ≤ 1) ∧
    (App.update ⟨[⟨"A", false, false⟩, ⟨"B", true, false⟩], .Active, "", ""⟩ (.Remove 1) = none ↔
      (State.visible ⟨[⟨"A", false, false⟩, ⟨"B", true, false⟩], .Active, "", ""⟩).length ≤ 1) :=
  index_ops_fail_iff_out_of_bounds
    ⟨[⟨"A", false, false⟩, ⟨"B", true, false⟩], .Active, "", ""⟩ 1

/-- Claim C8 counterexample: the route strings supplied per filter variant
are hash-prefixed, so none of them equals the plain string the claim
names. -/
theorem to_href_not_plain_routes :
    Filter.to_href .All ≠ "/" ∧ Filter.to_href .Active ≠ "/active" ∧
      Filter.to_href .Completed ≠ "/completed" := by
  refine ⟨?_, ?_, ?_⟩ <;> decide

/-- Claim C8 (amended): the linking function maps `All` to `"#/"`, `Active`
to `"#/active"` and `Completed` to `"#/completed"` — the spec's route
fragments prefixed with a hash mark. -/
theorem to_href_routes :
    Filter.to_href .All = "#/" ∧ Filter.to_href .Active = "#/active" ∧
      Filter.to_href .Completed = "#/completed" :=
  ⟨rfl, rfl, rfl⟩

/-- Claim C4 counterexample: under filter `Active` with entries
`[A(false), B(false)]`, visible index `0` resolves to the backing entry `A`
with `completed = false`; toggling visible index `0` twice leaves the state
with `A.completed = true` (the first toggle completes `A`, dropping it from
the visible subsequence, so the second toggle resolves the same visible
index to `B`) — the originally-toggled entry's flag does not return to its
original value. -/
theorem toggle_twice_not_involution_under_active :
    State.resolve ⟨[⟨"A", false, false⟩, ⟨"B", false, false⟩], .Active, "", ""⟩ 0 = some 0 ∧
    Option.bind
        (App.update ⟨[⟨"A", false, false⟩, ⟨"B", false, false⟩], .Active, "", ""⟩ (.Toggle 0))
        (fun t => App.update t (.Toggle 0))
      = some ⟨[⟨"A", true, false⟩, ⟨"B", true, false⟩], .Active, "", ""⟩ ∧
    (⟨"A", true, false⟩ : Entry).completed ≠ (⟨"A", false, false⟩ : Entry).completed := by
  refine ⟨rfl, rfl, ?_⟩
  decide

/-- Claim C4 (amended): under filter `All` — where toggling cannot move an
entry out of the visible subsequence — toggling the same visible index
twice in succession restores the whole state, in particular the toggled
entry's `completed` flag returns to its original value. -/
theorem toggle_toggle_id_filter_all (s : State) (idx : Nat)
    (hall : s.filter = Filter.All) (hidx : idx < s.entries.length) :
    Option.bind (App.update s (.Toggle idx)) (fun t => App.update t (.Toggle idx)) = some s := by
  have h1 : s.resolve idx = some idx := resolve_filter_all s hall idx hidx
  have hstep1 : App.update s (.Toggle idx)
      = some { s with entries := updateEntryAt s.entries idx (fun e => { e with completed := !e.completed }) } := by
    rw [show App.update s (.Toggle idx) = s.toggle idx from rfl]
    unfold State.toggle
    rw [h1]
  have h2 : State.resolve
        { s with entries := updateEntryAt s.entries idx (fun e => { e with completed := !e.completed }) } idx
      = some idx := by
    apply resolve_filter_all
    · exact hall
    · rw [show State.entries { s with entries := updateEntryAt s.entries idx (fun e => { e with completed := !e.completed }) }
          = updateEntryAt s.entries idx (fun e => { e with completed := !e.completed }) from rfl]
      rw [updateEntryAt_length]
      exact hidx
  rw [hstep1]
  rw [show Option.bind
        (some { s with entries := updateEntryAt s.entries idx (fun e => { e with completed := !e.completed }) })
        (fun t => App.update t (.Toggle idx))
      = App.update { s with entries := updateEntryAt s.entries idx (fun e => { e with completed := !e.completed }) }
          (.Toggle idx) from rfl]
  rw [show App.update { s with entries := updateEntryAt s.entries idx (fun e => { e with completed := !e.completed }) }
        (.Toggle idx)
      = State.toggle { s with entries := updateEntryAt s.entries idx (fun e => { e with completed := !e.completed }) }
          idx from rfl]
  unfold State.toggle
  rw [h2]
  show some { s with entries := updateEntryAt (updateEntryAt s.entries idx (fun e => { e with completed := !e.completed })) idx (fun e => { e with completed := !e.completed }) } = some s
  rw [updateEntryAt_updateEntryAt]
  have hfun : (fun e : Entry =>
        (fun x : Entry => { x with completed := !x.completed })
          ((fun x : Entry => { x with completed := !x.completed }) e))
      = fun e : Entry => e := by
    funext e
    cases e with
    | mk d c ed => simp
  rw [hfun, updateEntryAt_id]

/-- Witness for claim C4 (amended) at a one-entry state under filter
`All`. -/
theorem toggle_toggle_id_filter_all_witness :
    Option.bind (App.update ⟨[⟨"X", false, false⟩], .All, "", ""⟩ (.Toggle 0))
        (fun t => App.update t (.Toggle 0))
      = some ⟨[⟨"X", false, false⟩], .All, "", ""⟩ :=
  toggle_toggle_id_filter_all ⟨[⟨"X", false, false⟩], .All, "", ""⟩ 0 rfl (by decide)

/-- Claim C5: `ToggleAll` computes the target completion flag as the
negation of `is_all_completed` — true when the visible subsequence is empty,
otherwise the negation of "every visible entry is completed" — and sets
`completed := target` on exactly the entries passing the active filter,
leaving every entry failing the filter unchanged; with entries
`[A(false), B(true), C(false)]` and filter `All`, one call completes all
three and a second call un-completes all three. -/
theorem toggle_all_spec (s : State) :
    App.update s .ToggleAll = some (specToggleAllResult s) ∧
    App.update ⟨[⟨"A", false, false⟩, ⟨"B", true, false⟩, ⟨"C", false, false⟩], .All, "", ""⟩
        .ToggleAll
      = some ⟨[⟨"A", true, false⟩, ⟨"B", true, false⟩, ⟨"C", true, false⟩], .All, "", ""⟩ ∧
    App.update ⟨[⟨"A", true, false⟩, ⟨"B", true, false⟩, ⟨"C", true, false⟩], .All, "", ""⟩
        .ToggleAll
      = some ⟨[⟨"A", false, false⟩, ⟨"B", false, false⟩, ⟨"C", false, false⟩], .All, "", ""⟩ := by
  refine ⟨?_, rfl, rfl⟩
  have htarget : (!s.is_all_completed) = specToggleAllTarget s := by
    unfold State.is_all_completed specToggleAllTarget State.visible
    cases h : (s.entries.filter (fun e => s.filter.fit e)).isEmpty <;> simp [h]
  rw [show App.update s .ToggleAll = some (s.toggle_all (!s.is_all_completed)) from rfl, htarget]
  rfl

/-- Claim C6: `is_all_completed` returns false when the filtered visible
subsequence is empty, and otherwise returns true exactly when every visible
entry has `completed = true`. -/
theorem is_all_completed_spec (s : State) :
    (s.visible = [] → s.is_all_completed = false) ∧
    (s.visible ≠ [] → (s.is_all_completed = true ↔ ∀ e ∈ s.visible, e.completed = true)) := by
  have hval : s.is_all_completed
      = if s.visible.isEmpty then false else s.visible.all (fun e => e.completed) := rfl
  constructor
  · intro h
    rw [hval, h]
    rfl
  · intro h
    have hne : ¬ (s.visible.isEmpty = true) := fun hc => h (List.isEmpty_iff.mp hc)
    rw [hval, if_neg hne, List.all_eq_true]

/-- Witness for claim C6: an empty filtered view — filter `Completed` with
no completed entry — yields false. -/
theorem is_all_completed_spec_witness :
    State.is_all_completed ⟨[⟨"A", false, false⟩], .Completed, "", ""⟩ = false :=
  (is_all_completed_spec ⟨[⟨"A", false, false⟩], .Completed, "", ""⟩).1 rfl

/-- Claim C7: `clear_completed` removes from the backing sequence every
entry with `completed = true` whatever the active display filter is,
preserves the order of the survivors and every other state field, and is
idempotent: a second call changes nothing. -/
theorem clear_completed_spec (s : State) :
    State.clear_completed (State.clear_completed s) = State.clear_completed s ∧
    (State.clear_completed s).entries = s.entries.filter (fun e => !e.completed) ∧
    (State.clear_completed s).filter = s.filter ∧
    (State.clear_completed s).value = s.value ∧
    (State.clear_completed s).edit_value = s.edit_value := by
  refine ⟨?_, rfl, rfl, rfl, rfl⟩
  unfold State.clear_completed
  congr 1
  rw [List.filter_filter]
  congr 1
  funext e
  rw [Bool.and_self]

/-- Claim C9: when `commitEdit` (message `Edit`) resolves the visible index
to an entry whose `editing` flag is false, it sets that entry's description
to the current `edit_value`, flips the flag to true — putting the entry
into edit mode rather than leaving it — and clears `edit_value`. -/
theorem complete_edit_on_non_editing (s : State) (idx j : Nat) (e : Entry)
    (hres : s.resolve idx = some j) (hj : s.entries[j]? = some e)
    (hed : e.editing = false) :
    App.update s (.Edit idx)
      = some { s with
          entries := updateEntryAt s.entries j
            (fun x => { x with description := s.edit_value, editing := true }),
          edit_value := "" } := by
  have hcongr : updateEntryAt s.entries j
        (fun x => { x with description := s.edit_value, editing := !x.editing })
      = updateEntryAt s.entries j
        (fun x => { x with description := s.edit_value, editing := true }) := by
    apply updateEntryAt_congr s.entries j _ _ e hj
    rw [hed]
    rfl
  rw [show App.update s (.Edit idx) = (match s.complete_edit idx s.edit_value with
      | none => none
      | some t => some { t with edit_value := "" }) from rfl]
  unfold State.complete_edit
  rw [hres]
  show some { s with
      entries := updateEntryAt s.entries j
        (fun x => { x with description := s.edit_value, editing := !x.editing }),
      edit_value := "" } = _
  rw [hcongr]

/-- Witness for claim C9: committing against the sole, non-editing entry
with `edit_value = "new"`. -/
theorem complete_edit_on_non_editing_witness :
    App.update ⟨[⟨"old", false, false⟩], .All, "", "new"⟩ (.Edit 0)
      = some ⟨updateEntryAt [⟨"old", false, false⟩] 0
          (fun x => { x with description := "new", editing := true }), .All, "", ""⟩ :=
  complete_edit_on_non_editing ⟨[⟨"old", false, false⟩], .All, "", "new"⟩ 0 0
    ⟨"old", false, false⟩ rfl rfl rfl

/-- Claim C10: `Toggle` at an in-bounds visible index changes only the
`completed` field of the resolved entry: the entry count, that entry's
description and editing flag, every other entry, the filter and both text
buffers are unchanged. -/
theorem toggle_frame (s : State) (idx : Nat) (hidx : idx < s.visible.length) :
    ∃ j e t, s.resolve idx = some j ∧ s.entries[j]? = some e ∧
      App.update s (.Toggle idx) = some t ∧
      t.filter = s.filter ∧ t.value = s.value ∧ t.edit_value = s.edit_value ∧
      t.entries.length = s.entries.length ∧
      t.entries[j]? = some { e with completed := !e.completed } ∧
      (∀ k, k ≠ j → t.entries[k]? = s.entries[k]?) := by
  have hsome : (s.resolve idx).isSome = true := (resolve_isSome_iff s idx).mpr hidx
  rcases hres : s.resolve idx with _ | j
  · rw [hres] at hsome; exact Bool.noConfusion hsome
  obtain ⟨e, h1, h2, h3, h4⟩ := resolve_spec s idx j hres
  refine ⟨j, e,
    { s with entries := updateEntryAt s.entries j (fun x => { x with completed := !x.completed }) },
    rfl, h1, ?_, rfl, rfl, rfl, ?_, ?_, ?_⟩
  · rw [show App.update s (.Toggle idx) = s.toggle idx from rfl]
    unfold State.toggle
    rw [hres]
  · exact updateEntryAt_length _ _ _
  · exact updateEntryAt_getElem_self s.entries j _ e h1
  · intro k hk
    exact updateEntryAt_getElem_ne s.entries j _ k hk

/-- Witness for claim C10 at a one-entry state under filter `All`. -/
theorem toggle_frame_witness :
    0 < (State.visible ⟨[⟨"A", false, false⟩], .All, "", ""⟩).length ∧
    (∃ j e t,
      State.resolve ⟨[⟨"A", false, false⟩], .All, "", ""⟩ 0 = some j ∧
      ([⟨"A", false, false⟩] : List Entry)[j]? = some e ∧
      App.update ⟨[⟨"A", false, false⟩], .All, "", ""⟩ (.Toggle 0) = some t ∧
      t.filter = Filter.All ∧ t.value = "" ∧ t.edit_value = "" ∧
      t.entries.length = ([⟨"A", false, false⟩] : List Entry).length ∧
      t.entries[j]? = some { e with completed := !e.completed } ∧
      (∀ k, k ≠ j → t.entries[k]? = ([⟨"A", false, false⟩] : List Entry)[k]?)) :=
  ⟨by decide, toggle_frame ⟨[⟨"A", false, false⟩], .All, "", ""⟩ 0 (by decide)⟩

end Todo
